import Mathlib

/-!
# Verification of the Shamir secret-sharing core (`shamir_core.py`)

This file gives a shallow embedding of the repository's core module
`shamir_core.py` and proves/refutes the specification claims about it.

Modelling conventions:
* Python integers are `Nat`/`Int`; Python `%` on a positive modulus agrees
  with `Int.emod` / `Nat.mod`, and `pow(b, e, m)` is `b ^ e % m`.
* The secret is modelled at the byte level (`List Nat`, entries < 256):
  `_string_to_bytes` is UTF-8 encoding, whose range is exactly the byte
  sequences satisfying `validUTF8`; `_bytes_to_string` (UTF-8 decode) is a
  bijection from that range onto strings, so a decoded string is
  represented here by its byte sequence, and byte-level round trips are
  equivalent to string-level round trips.
* The calls to `random.randint(0, prime - 1)` in `create_shares` are made
  explicit: the caller passes one list of tail coefficients per secret byte.
* Functions that `raise ValueError(msg)` return `Except String` with the
  exact message the Python code produces.
-/

namespace ShamirCore

/-- `PRIME = 257` from `shamir_core.py`. -/
def PRIME : Nat := 257

/-- `ShamirSecretSharing._evaluate_polynomial`: Horner-free power-sum
evaluation, reducing mod `prime` at every step (`prime` is `self.prime`). -/
def evaluate_polynomial (prime : Nat) (coeffs : List Nat) (x : Nat) : Nat :=
  coeffs.enum.foldl (fun result pc => (result + pc.2 * (x ^ pc.1 % prime)) % prime) 0

/-- `ShamirSecretSharing._mod_inverse`: `pow(a % p, p - 2, p)`. -/
def mod_inverse (a p : Int) : Int :=
  (a % p) ^ (p - 2).toNat % p

/-- `ShamirSecretSharing._lagrange_interpolate` over the field of integers
mod `prime` (`self.prime`), with the source's exact reduction points. -/
def lagrange_interpolate (prime : Int) (x : Int) (x_values y_values : List Int) : Int :=
  let k := x_values.length
  (List.range k).foldl
    (fun total i =>
      let xi := x_values.getD i 0
      let yi := y_values.getD i 0
      let prod := (List.range k).foldl
        (fun prod j =>
          if i ≠ j then
            prod * ((x - x_values.getD j 0) * mod_inverse (xi - x_values.getD j 0) prime) % prime
          else prod)
        yi
      (total + prod) % prime)
    0

/-- `ShamirSecretSharing.create_shares`.  The secret is the UTF-8 byte list of
the input string (empty string ↔ empty byte list); `rands` supplies, for each
byte, the `k - 1` tail coefficients that the source draws with
`random.randint(0, self.prime - 1)`. -/
def create_shares (prime : Nat) (secret : List Nat) (n k : Nat)
    (rands : List (List Nat)) : Except String (List (Nat × List Nat)) :=
  if secret = [] then .error "Le secret ne peut pas être vide"
  else if k > n then .error "k ne peut pas être supérieur à n"
  else if k < 2 then .error "k doit être au moins 2"
  else if n < 2 then .error "n doit être au moins 2"
  else
    let shares := (secret.zip rands).foldl
      (fun shares bc =>
        List.zipWith (fun share i => share ++ [evaluate_polynomial prime (bc.1 :: bc.2) i])
          shares ((List.range n).map (· + 1)))
      (List.replicate n [])
    .ok (shares.enum.map fun p => (p.1 + 1, p.2))

/-- A UTF-8 continuation byte (`0x80..0xBF`). -/
def isCont (b : Int) : Bool := 128 ≤ b && b ≤ 191

/-- Validity of a byte sequence under CPython's strict UTF-8 decoder:
`bytes(bs).decode('utf-8')` succeeds exactly when this holds.  ASCII
(`00..7F`); two-byte sequences `C2..DF` + continuation; three-byte
sequences with the `E0` (no overlongs) and `ED` (no surrogates) special
ranges; four-byte sequences with the `F0`/`F4` special ranges.  Bytes
`80..C1` and `F5..FF` never start a character. -/
def validUTF8 : List Int → Bool
  | [] => true
  | b0 :: rest =>
    if 0 ≤ b0 && b0 ≤ 127 then validUTF8 rest
    else if 194 ≤ b0 && b0 ≤ 223 then
      match rest with
      | b1 :: rest2 => isCont b1 && validUTF8 rest2
      | [] => false
    else if b0 = 224 then
      match rest with
      | b1 :: b2 :: rest2 => (160 ≤ b1 && b1 ≤ 191) && isCont b2 && validUTF8 rest2
      | _ => false
    else if (225 ≤ b0 && b0 ≤ 236) || (238 ≤ b0 && b0 ≤ 239) then
      match rest with
      | b1 :: b2 :: rest2 => isCont b1 && isCont b2 && validUTF8 rest2
      | _ => false
    else if b0 = 237 then
      match rest with
      | b1 :: b2 :: rest2 => (128 ≤ b1 && b1 ≤ 159) && isCont b2 && validUTF8 rest2
      | _ => false
    else if b0 = 240 then
      match rest with
      | b1 :: b2 :: b3 :: rest2 =>
        (144 ≤ b1 && b1 ≤ 191) && isCont b2 && isCont b3 && validUTF8 rest2
      | _ => false
    else if 241 ≤ b0 && b0 ≤ 243 then
      match rest with
      | b1 :: b2 :: b3 :: rest2 => isCont b1 && isCont b2 && isCont b3 && validUTF8 rest2
      | _ => false
    else if b0 = 244 then
      match rest with
      | b1 :: b2 :: b3 :: rest2 =>
        (128 ≤ b1 && b1 ≤ 143) && isCont b2 && isCont b3 && validUTF8 rest2
      | _ => false
    else false

/-- `ShamirSecretSharing.reconstruct_secret`, including the final
`_bytes_to_string` call: `bytes(secret_bytes).decode('utf-8')` raises
`UnicodeDecodeError` when the interpolated bytes are not valid UTF-8,
and otherwise returns the decoded string, represented here by its byte
sequence (UTF-8 decode is a bijection from valid byte sequences onto
strings).  Only the success/failure split of the decoder is modelled;
CPython's `UnicodeDecodeError` message (offending byte, position,
reason) is abbreviated to a fixed tag, and no claim inspects it. -/
def reconstruct_secret (prime : Int) (shares : List (Int × List Int)) :
    Except String (List Int) :=
  match shares with
  | [] => .error "Aucune part fournie"
  | share0 :: _ =>
    let length := share0.2.length
    if shares.all (fun share => share.2.length == length) then
      let secret_bytes := (List.range length).map fun idx =>
        let x_values := shares.map (·.1)
        let y_values := shares.map fun share => share.2.getD idx 0
        lagrange_interpolate prime 0 x_values y_values % 256
      if validUTF8 secret_bytes then .ok secret_bytes
      else .error "UnicodeDecodeError"
    else .error "Toutes les parts doivent avoir la même longueur"

/-! ## Share text encoding/decoding (`format_share_for_display`, `parse_share_from_input`)

Python library primitives used by the source are modelled explicitly:
`str.strip`, `str.split(':', 1)`, `str.split(',')`, `int(...)` (base-10
literals with an optional sign and CPython's single-underscore digit
grouping; unicode digits are not modelled as no claim depends on them) and
`str(...)` on integers (canonical decimal rendering). -/

/-- Python `str.strip` (whitespace characters). -/
def pystrip (cs : List Char) : List Char :=
  ((cs.dropWhile Char.isWhitespace).reverse.dropWhile Char.isWhitespace).reverse

/-- Digit-sequence part of Python `int()` parsing: a nonempty run of ASCII
digits, allowing a single `_` between two digits (CPython's grouping rule);
`acc` is the value of the digits consumed so far. -/
def parseDigitsGo (acc : Nat) : List Char → Option Nat
  | [] => some acc
  | c :: cs =>
    if c = '_' then
      match cs with
      | [] => none
      | c' :: cs' => if c'.isDigit then parseDigitsGo (10 * acc + (c'.toNat - 48)) cs' else none
    else if c.isDigit then parseDigitsGo (10 * acc + (c.toNat - 48)) cs else none

/-- A nonempty digit run, starting with a digit (never an underscore). -/
def parseDigits : List Char → Option Nat
  | [] => none
  | c :: cs => if c.isDigit then parseDigitsGo (c.toNat - 48) cs else none

/-- Python `int()` on an already-stripped string: optional sign then digits.
Returns `none` where CPython raises `ValueError`. -/
def pyInt? (cs : List Char) : Option Int :=
  match cs with
  | [] => none
  | c :: rest =>
    if c = '+' then (parseDigits rest).map fun v => (v : Int)
    else if c = '-' then (parseDigits rest).map fun v => -(v : Int)
    else (parseDigits (c :: rest)).map fun v => (v : Int)

/-- Python `share_text.split(':', 1)`: the part before the first colon and
the part after it.  Only reached when a colon is present; the no-colon
result is irrelevant. -/
def splitFirstColon : List Char → List Char × List Char
  | [] => ([], [])
  | c :: cs =>
    if c = ':' then ([], cs)
    else
      let p := splitFirstColon cs
      (c :: p.1, p.2)

/-- Python `values_str.split(',')`: split at every comma, keeping empty
pieces (`"".split(',') == [""]`). -/
def splitCommas : List Char → List (List Char)
  | [] => [[]]
  | c :: cs =>
    if c = ',' then [] :: splitCommas cs
    else
      match splitCommas cs with
      | [] => [[c]]
      | t :: ts => (c :: t) :: ts

/-- Python `','.join(pieces)`. -/
def joinCommas : List (List Char) → List Char
  | [] => []
  | [t] => t
  | t :: t2 :: ts => t ++ ',' :: joinCommas (t2 :: ts)

/-- Python `str(n)` for a natural number: canonical decimal digits. -/
def natToDecimal (n : Nat) : List Char :=
  if n < 10 then [Char.ofNat (48 + n)]
  else natToDecimal (n / 10) ++ [Char.ofNat (48 + n % 10)]
termination_by n
decreasing_by exact Nat.div_lt_self (by omega) (by norm_num)

/-- Python `str(i)` for an integer: optional minus sign then decimal digits. -/
def intToDecimal (i : Int) : List Char :=
  if i < 0 then '-' :: natToDecimal (-i).toNat else natToDecimal i.toNat

/-- `format_share_for_display`: `f"{index}:{','.join(map(str, share))}"`. -/
def format_share_for_display (index : Int) (share : List Int) : String :=
  String.mk (intToDecimal index ++ ':' :: joinCommas (share.map intToDecimal))

/-- The list comprehension `[int(x.strip()) for x in values_str.split(',')]`:
the first non-integer token raises, carrying CPython's `int()` message for
that (stripped) token. -/
def parseValues : List (List Char) → Except String (List Int)
  | [] => .ok []
  | t :: ts =>
    match pyInt? (pystrip t) with
    | none => .error ("invalid literal for int() with base 10: '" ++ String.mk (pystrip t) ++ "'")
    | some v => (parseValues ts).map fun vs => v :: vs

/-- `parse_share_from_input`.  All `ValueError`s raised inside the `try`
block (including those from `int()`) are re-raised with the message
`f"Format de part invalide: {e}"`, which this model reproduces exactly
(with CPython's single-quote `repr` for the offending token). -/
def parse_share_from_input (share_text : String) : Except String (Int × List Int) :=
  if ':' ∈ share_text.data then
    let p := splitFirstColon share_text.data
    match pyInt? (pystrip p.1) with
    | none => .error ("Format de part invalide: invalid literal for int() with base 10: '"
        ++ String.mk (pystrip p.1) ++ "'")
    | some index =>
      if pystrip p.2 = [] then .error "Format de part invalide: Aucune valeur fournie"
      else
        match parseValues (splitCommas p.2) with
        | .error e => .error ("Format de part invalide: " ++ e)
        | .ok values => .ok (index, values)
  else .error "Format de part invalide: Format invalide: doit contenir ':'"

/-! ## Spec-side helper definitions (used only to state and prove theorems) -/

/-- The value sequence one share with index `x` receives: one field element
per secret byte (closed form of the `create_shares` accumulation loop). -/
def shareValues (prime : Nat) (secret : List Nat) (rands : List (List Nat)) (x : Nat) : List Nat :=
  (secret.zip rands).map fun bc => evaluate_polynomial prime (bc.1 :: bc.2) x

/-- Closed form of the share list returned by a successful `create_shares`. -/
def buildShares (prime n : Nat) (secret : List Nat) (rands : List (List Nat)) :
    List (Nat × List Nat) :=
  (List.range n).map fun s => (s + 1, shareValues prime secret rands (s + 1))

/-- `needle` occurs at the start of `hay`. -/
def leadsWith : List Char → List Char → Bool
  | [], _ => true
  | _ :: _, [] => false
  | a :: as, b :: bs => a == b && leadsWith as bs

/-- `needle` occurs somewhere inside `hay` (substring test, used to state
that an error message does or does not carry the offending text). -/
def containsSub (needle : List Char) : List Char → Bool
  | [] => needle.isEmpty
  | c :: cs => leadsWith needle (c :: cs) || containsSub needle cs

/-! ## Theorems -/

set_option maxRecDepth 10000

/-- C3: the claim says `_mod_inverse` fails with a `DivisionByZero`-class
error whenever `a ≡ 0 (mod 257)`.  The code instead computes
`pow(0, 255, 257) = 0` and returns the numeric result `0`: `pow` with a
nonnegative exponent never raises. -/
theorem mod_inverse_zero (a : Int) (h : a % 257 = 0) : mod_inverse a 257 = 0 := by
  simp [mod_inverse, h]

/-- Evaluation of `mod_inverse_zero` at the concrete argument `0`. -/
theorem mod_inverse_zero_witness : mod_inverse 0 257 = 0 :=
  mod_inverse_zero 0 (by decide)

/-- C2: the claim says reconstruction from two shares with the same index
raises.  The code silently succeeds: `_mod_inverse(0, 257) = 0` zeroes out
every Lagrange term, so `reconstruct_secret` returns the byte string
`b"\x00"` (here, the byte list `[0]`) instead of an error. -/
theorem reconstruct_secret_duplicate_index :
    reconstruct_secret 257 [(1, [10]), (1, [20])] = .ok [0] := rfl

/-- C4: `create_shares` errors exactly when the secret is empty, `n < 2`,
`k < 2` or `k > n`; otherwise it returns shares.  (The random tail
coefficients `rands` are irrelevant to validation.) -/
theorem create_shares_validation (secret : List Nat) (n k : Nat) (rands : List (List Nat)) :
    ((∃ msg, create_shares 257 secret n k rands = .error msg) ↔
      (secret = [] ∨ n < 2 ∨ k < 2 ∨ k > n)) ∧
    (¬(secret = [] ∨ n < 2 ∨ k < 2 ∨ k > n) →
      ∃ shares, create_shares 257 secret n k rands = .ok shares) := by
  by_cases h1 : secret = [] <;> by_cases h2 : k > n <;> by_cases h3 : k < 2 <;>
    by_cases h4 : n < 2 <;> simp [create_shares, h1, h2, h3, h4]

/-- Evaluation of `create_shares_validation` at a concrete valid input. -/
theorem create_shares_validation_witness :
    ∃ shares, create_shares 257 [65] 2 2 [[3]] = .ok shares :=
  (create_shares_validation [65] 2 2 [[3]]).2 (by decide)

/-- C5: `reconstruct_secret` rejects an empty share collection, and rejects
mismatched value-sequence lengths, in both cases returning an error and
never an interpolation result. -/
theorem reconstruct_structural_validation :
    reconstruct_secret 257 [] = .error "Aucune part fournie" ∧
    ∀ (share0 : Int × List Int) (rest : List (Int × List Int)),
      (∃ sh ∈ share0 :: rest, sh.2.length ≠ share0.2.length) →
      reconstruct_secret 257 (share0 :: rest) =
        .error "Toutes les parts doivent avoir la même longueur" := by
  refine ⟨rfl, ?_⟩
  rintro share0 rest ⟨sh, hmem, hne⟩
  have hall : ¬ ((share0 :: rest).all fun share => share.2.length == share0.2.length) = true := by
    simp only [List.all_eq_true]
    intro hf
    exact hne (by simpa using hf sh hmem)
  simp only [reconstruct_secret, if_neg hall]

/-- Evaluation of `reconstruct_structural_validation` at shares of lengths
2 and 1. -/
theorem reconstruct_structural_validation_witness :
    reconstruct_secret 257 [(1, [10, 11]), (2, [20])] =
      .error "Toutes les parts doivent avoir la même longueur" :=
  reconstruct_structural_validation.2 (1, [10, 11]) [(2, [20])]
    ⟨(2, [20]), by simp, by simp⟩

/-! ### Closed form of `create_shares` -/

theorem map_getD_range (l : List α) (d : α) :
    (List.range l.length).map (fun s => l.getD s d) = l := by
  apply List.ext_getElem (by simp)
  intro i h1 h2
  simp only [List.getElem_map, List.getElem_range]
  exact List.getD_eq_getElem l d h2

theorem getD_replicate_self (n s : ℕ) (d : α) : (List.replicate n d).getD s d = d := by
  by_cases h : s < n
  · rw [List.getD_eq_getElem _ _ (by simpa using h), List.getElem_replicate]
  · exact List.getD_eq_default _ _ (by simpa using Nat.le_of_not_lt h)

theorem create_shares_foldl (prime n : ℕ) :
    ∀ (l : List (ℕ × List ℕ)) (init : List (List ℕ)), init.length = n →
      l.foldl
        (fun shares bc =>
          List.zipWith (fun share i => share ++ [evaluate_polynomial prime (bc.1 :: bc.2) i])
            shares ((List.range n).map (· + 1)))
        init
      = (List.range n).map
          (fun s => init.getD s [] ++
            l.map fun bc => evaluate_polynomial prime (bc.1 :: bc.2) (s + 1)) := by
  intro l
  induction l with
  | nil =>
    intro init hinit
    subst hinit
    simpa using (map_getD_range init []).symm
  | cons bc l ih =>
    intro init hinit
    rw [List.foldl_cons, ih _ (by simp [hinit])]
    apply List.map_congr_left
    intro s hs
    have hsn : s < n := List.mem_range.mp hs
    have hzlen : s < (List.zipWith (fun share i =>
        share ++ [evaluate_polynomial prime (bc.1 :: bc.2) i])
        init ((List.range n).map (· + 1))).length := by
      simp [hinit, hsn]
    rw [List.getD_eq_getElem _ _ hzlen, List.getElem_zipWith,
      List.getElem_map, List.getElem_range,
      ← List.getD_eq_getElem init [] (by rw [hinit]; exact hsn)]
    simp

theorem create_shares_eq (prime : ℕ) (secret : List ℕ) (n k : ℕ) (rands : List (List ℕ))
    (hsec : secret ≠ []) (hk : 2 ≤ k) (hkn : k ≤ n) :
    create_shares prime secret n k rands = .ok (buildShares prime n secret rands) := by
  simp only [create_shares, if_neg hsec, if_neg (by omega : ¬ k > n),
    if_neg (by omega : ¬ k < 2), if_neg (by omega : ¬ n < 2)]
  rw [create_shares_foldl prime n (secret.zip rands) _ (List.length_replicate n [])]
  congr 1
  apply List.ext_getElem (by simp [buildShares])
  intro i h1 h2
  simp only [List.getElem_enum, List.getElem_map, List.getElem_range, buildShares, shareValues,
    getD_replicate_self, List.nil_append]

/-- Every result of `_evaluate_polynomial` is already reduced mod `prime`. -/
theorem evaluate_polynomial_lt (prime : ℕ) (hp : 0 < prime) (coeffs : List ℕ) (x : ℕ) :
    evaluate_polynomial prime coeffs x < prime := by
  suffices h : ∀ (l : List (ℕ × ℕ)) (acc : ℕ), acc < prime →
      l.foldl (fun result pc => (result + pc.2 * (x ^ pc.1 % prime)) % prime) acc < prime from
    h coeffs.enum 0 hp
  intro l
  induction l with
  | nil => exact fun acc h => h
  | cons pc l ih => exact fun acc _ => ih _ (Nat.mod_lt _ hp)

/-- C6: on valid input, `create_shares` returns exactly `n` shares, indexed
`1, 2, ..., n` in order, each value sequence as long as the secret's byte
sequence, and every value a field element in `[0, 256]`. -/
theorem create_shares_shape (secret : List ℕ) (n k : ℕ) (rands : List (List ℕ))
    (shares : List (ℕ × List ℕ))
    (hsec : secret ≠ []) (hk : 2 ≤ k) (hkn : k ≤ n)
    (hr : rands.length = secret.length)
    (hout : create_shares 257 secret n k rands = .ok shares) :
    shares.length = n ∧
    shares.map Prod.fst = (List.range n).map (· + 1) ∧
    ∀ sh ∈ shares, 1 ≤ sh.1 ∧ sh.1 ≤ n ∧ sh.2.length = secret.length ∧
      ∀ v ∈ sh.2, v ≤ 256 := by
  rw [create_shares_eq 257 secret n k rands hsec hk hkn] at hout
  obtain rfl : buildShares 257 n secret rands = shares := by
    injection hout
  refine ⟨by simp [buildShares], ?_, ?_⟩
  · simp only [buildShares, List.map_map]
    rfl
  · intro sh hsh
    simp only [buildShares, List.mem_map, List.mem_range] at hsh
    obtain ⟨s, hs, rfl⟩ := hsh
    refine ⟨by omega, by omega, ?_, ?_⟩
    · simp [shareValues, hr]
    · intro v hv
      simp only [shareValues, List.mem_map] at hv
      obtain ⟨bc, hbc, rfl⟩ := hv
      have := evaluate_polynomial_lt 257 (by norm_num) (bc.1 :: bc.2) (s + 1)
      omega

/-- Evaluation of `create_shares_shape` on a concrete split. -/
theorem create_shares_shape_witness :
    ([(1, [68]), (2, [71])] : List (ℕ × List ℕ)).length = 2 ∧
    ([(1, [68]), (2, [71])] : List (ℕ × List ℕ)).map Prod.fst = (List.range 2).map (· + 1) ∧
    ∀ sh ∈ ([(1, [68]), (2, [71])] : List (ℕ × List ℕ)),
      1 ≤ sh.1 ∧ sh.1 ≤ 2 ∧ sh.2.length = [65].length ∧ ∀ v ∈ sh.2, v ≤ 256 :=
  create_shares_shape [65] 2 2 [[3]] [(1, [68]), (2, [71])] (by decide) (by decide)
    (by decide) (by decide) rfl

/-- On a nonempty, equal-length share collection whose interpolated bytes
are valid UTF-8, `reconstruct_secret` succeeds with those bytes. -/
theorem reconstruct_secret_ok (shares : List (ℤ × List ℤ)) (share0 : ℤ × List ℤ)
    (hne : shares ≠ []) (hhead : shares.headD (0, []) = share0)
    (hlen : ∀ sh ∈ shares, sh.2.length = share0.2.length)
    (hvalid : validUTF8 ((List.range share0.2.length).map fun idx =>
        lagrange_interpolate 257 0 (shares.map fun x => x.1)
          (shares.map fun share => share.2.getD idx 0) % 256) = true) :
    reconstruct_secret 257 shares
      = .ok ((List.range share0.2.length).map fun idx =>
          lagrange_interpolate 257 0 (shares.map fun x => x.1)
            (shares.map fun share => share.2.getD idx 0) % 256) := by
  cases shares with
  | nil => exact absurd rfl hne
  | cons a rest =>
    obtain rfl : a = share0 := by simpa using hhead
    have hall : ((a :: rest).all fun share => share.2.length == a.2.length) = true := by
      rw [List.all_eq_true]
      intro sh hm
      simpa using hlen sh hm
    simp only [reconstruct_secret, if_pos hall, if_pos hvalid]

/-- C10 counterexample: the claim says `reconstruct_secret` accepts shares
with out-of-range indices and values "without raising an error", but the
function ends in `bytes(...).decode('utf-8')`: on `[(-1, [300]), (0, [999])]`
the interpolated byte is `228` (`0xE4`), which is not valid UTF-8 on its
own, and CPython raises `UnicodeDecodeError` instead of returning. -/
theorem reconstruct_unicode_error :
    reconstruct_secret 257 [(-1, [300]), (0, [999])] = .error "UnicodeDecodeError" := rfl

/-- C10 (amended): no range validation — `parse_share_from_input` decodes
`"0:300"` to `(0, [300])` with no range check, and `reconstruct_secret`
performs no index/value range validation either: a share collection with a
negative index and a value above 256 is accepted whenever the interpolated
bytes decode (`[(-1, [300]), (0, [65])]` yields the byte string `"A"`), and
in general every nonempty equal-length share collection whose interpolated
bytes are valid UTF-8 reconstructs successfully — a failure can stem only
from the final UTF-8 decode, never from a range check. -/
theorem no_range_validation :
    parse_share_from_input "0:300" = .ok (0, [300]) ∧
    reconstruct_secret 257 [(-1, [300]), (0, [65])] = .ok [65] ∧
    ∀ (share0 : Int × List Int) (rest : List (Int × List Int)),
      (∀ sh ∈ share0 :: rest, sh.2.length = share0.2.length) →
      validUTF8 ((List.range share0.2.length).map fun idx =>
        lagrange_interpolate 257 0 ((share0 :: rest).map fun x => x.1)
          ((share0 :: rest).map fun share => share.2.getD idx 0) % 256) = true →
      ∃ out, reconstruct_secret 257 (share0 :: rest) = .ok out := by
  refine ⟨rfl, rfl, ?_⟩
  intro share0 rest hlen hvalid
  exact ⟨_, reconstruct_secret_ok (share0 :: rest) share0 (by simp) (by simp) hlen hvalid⟩

/-- Evaluation of `no_range_validation` at a negative index and an
out-of-range value whose reconstruction decodes. -/
theorem no_range_validation_witness :
    ∃ out, reconstruct_secret 257 [(-3, [300]), (0, [66])] = .ok out :=
  no_range_validation.2.2 (-3, [300]) [(0, [66])] (by decide) (by decide)

/-! ### C7: malformed share text -/

/-- C7 counterexample: for the no-colon input `"1,2,3"` the code raises the
fixed message `"Format de part invalide: Format invalide: doit contenir ':'"`,
which does not contain the offending text, contrary to the claim's "the
raised error carries the offending text". -/
theorem malformed_share_no_offending_text :
    parse_share_from_input "1,2,3" =
      .error "Format de part invalide: Format invalide: doit contenir ':'" ∧
    containsSub "1,2,3".data
      "Format de part invalide: Format invalide: doit contenir ':'".data = false :=
  ⟨rfl, by decide⟩

theorem parseValues_cons (t : List Char) (ts : List (List Char)) :
    parseValues (t :: ts) =
      match pyInt? (pystrip t) with
      | none => .error ("invalid literal for int() with base 10: '"
          ++ String.mk (pystrip t) ++ "'")
      | some v => (parseValues ts).map fun vs => v :: vs := by
  rw [parseValues.eq_def]

/-- A non-integer token anywhere in the value list makes the list
comprehension raise. -/
theorem parseValues_errors : ∀ (ts : List (List Char)),
    (∃ t ∈ ts, pyInt? (pystrip t) = none) → ∃ e, parseValues ts = .error e := by
  intro ts
  induction ts with
  | nil => rintro ⟨t, ht, -⟩; cases ht
  | cons t ts ih =>
    rintro ⟨t2, ht2, hn⟩
    rw [parseValues_cons]
    cases hh : pyInt? (pystrip t) with
    | none => exact ⟨_, rfl⟩
    | some v =>
      rcases List.mem_cons.mp ht2 with rfl | hmem
      · rw [hh] at hn
        cases hn
      · obtain ⟨e, he⟩ := ih ⟨t2, hmem, hn⟩
        exact ⟨e, by rw [he]; rfl⟩

/-- C7 (amended): `parse_share_from_input` raises on each of `"1:"`,
`"abc:1,2,3"` and `"1,2,3"`, and, universally: on every input without a
colon (fixed message, not carrying the offending text); on every input
whose stripped index token is not an integer literal (the error carries
that token, as `int()`'s message embeds it); on every input whose value
part strips to empty; and on every input with a non-integer value token.
The missing-colon and empty-value errors are fixed messages that do not
carry the offending text. -/
theorem malformed_share_rejection :
    parse_share_from_input "1:" = .error "Format de part invalide: Aucune valeur fournie" ∧
    parse_share_from_input "abc:1,2,3" =
      .error "Format de part invalide: invalid literal for int() with base 10: 'abc'" ∧
    parse_share_from_input "1,2,3" =
      .error "Format de part invalide: Format invalide: doit contenir ':'" ∧
    (∀ s : String, ':' ∉ s.data →
      parse_share_from_input s =
        .error "Format de part invalide: Format invalide: doit contenir ':'") ∧
    (∀ s : String, ':' ∈ s.data →
      pyInt? (pystrip (splitFirstColon s.data).1) = none →
      parse_share_from_input s =
        .error ("Format de part invalide: invalid literal for int() with base 10: '"
          ++ String.mk (pystrip (splitFirstColon s.data).1) ++ "'")) ∧
    (∀ s : String, ':' ∈ s.data →
      pystrip (splitFirstColon s.data).2 = [] →
      ∃ e, parse_share_from_input s = .error e) ∧
    (∀ s : String, ':' ∈ s.data →
      (∃ t ∈ splitCommas (splitFirstColon s.data).2, pyInt? (pystrip t) = none) →
      ∃ e, parse_share_from_input s = .error e) := by
  refine ⟨rfl, rfl, rfl, ?_, ?_, ?_, ?_⟩
  · intro s hs
    simp [parse_share_from_input, hs]
  · intro s hc hnone
    simp only [parse_share_from_input, if_pos hc, hnone]
  · intro s hc hempty
    cases hidx : pyInt? (pystrip (splitFirstColon s.data).1) with
    | none => exact ⟨_, by simp only [parse_share_from_input, if_pos hc, hidx]; rfl⟩
    | some v =>
      exact ⟨_, by simp only [parse_share_from_input, if_pos hc, hidx, if_pos hempty]; rfl⟩
  · intro s hc hex
    cases hidx : pyInt? (pystrip (splitFirstColon s.data).1) with
    | none => exact ⟨_, by simp only [parse_share_from_input, if_pos hc, hidx]; rfl⟩
    | some v =>
      by_cases hemp : pystrip (splitFirstColon s.data).2 = []
      · exact ⟨_, by simp only [parse_share_from_input, if_pos hc, hidx, if_pos hemp]; rfl⟩
      · obtain ⟨e, he⟩ := parseValues_errors _ hex
        exact ⟨_, by simp only [parse_share_from_input, if_pos hc, hidx, if_neg hemp, he]; rfl⟩

/-- Evaluation of `malformed_share_rejection`: the non-integer value token
`"x"` in `"1:2,x"`. -/
theorem malformed_share_rejection_witness :
    ∃ e, parse_share_from_input "1:2,x" = .error e :=
  malformed_share_rejection.2.2.2.2.2.2 "1:2,x" (by decide) (by decide)

/-! ### C9: decimal rendering inverts decimal parsing -/

theorem decimal_digit_props : ∀ d < 10,
    (Char.ofNat (48 + d)).isDigit = true ∧ (Char.ofNat (48 + d)).isWhitespace = false ∧
    Char.ofNat (48 + d) ≠ '+' ∧ Char.ofNat (48 + d) ≠ '-' ∧ Char.ofNat (48 + d) ≠ ',' ∧
    Char.ofNat (48 + d) ≠ ':' ∧ Char.ofNat (48 + d) ≠ '_' ∧
    (Char.ofNat (48 + d)).toNat - 48 = d := by decide

theorem natToDecimal_chars (n : ℕ) : ∀ c ∈ natToDecimal n, ∃ d, d < 10 ∧ c = Char.ofNat (48 + d) := by
  induction n using Nat.strong_induction_on with
  | _ n ih =>
    rw [natToDecimal]
    split
    · next h =>
      intro c hc
      simp only [List.mem_singleton] at hc
      exact ⟨n, h, hc⟩
    · next h =>
      intro c hc
      rcases List.mem_append.mp hc with h1 | h1
      · exact ih (n / 10) (Nat.div_lt_self (by omega) (by norm_num)) c h1
      · simp only [List.mem_singleton] at h1
        exact ⟨n % 10, Nat.mod_lt _ (by norm_num), h1⟩

theorem natToDecimal_ne_nil (n : ℕ) : natToDecimal n ≠ [] := by
  rw [natToDecimal]
  split <;> simp

theorem intToDecimal_ne_nil (i : ℤ) : intToDecimal i ≠ [] := by
  rw [intToDecimal]
  split
  · simp
  · exact natToDecimal_ne_nil _

/-- Characters of `str(i)`: a minus sign or decimal digits; in particular no
whitespace, comma, or colon. -/
theorem intToDecimal_chars (i : ℤ) : ∀ c ∈ intToDecimal i,
    c.isWhitespace = false ∧ c ≠ ',' ∧ c ≠ ':' := by
  have hdig : ∀ (m : ℕ), ∀ c ∈ natToDecimal m,
      c.isWhitespace = false ∧ c ≠ ',' ∧ c ≠ ':' := by
    intro m c hc
    obtain ⟨d, hd, rfl⟩ := natToDecimal_chars m c hc
    obtain ⟨_, h2, _, _, h5, h6, _, _⟩ := decimal_digit_props d hd
    exact ⟨h2, h5, h6⟩
  rw [intToDecimal]
  split
  · intro c hc
    rcases List.mem_cons.mp hc with rfl | h1
    · refine ⟨by decide, by decide, by decide⟩
    · exact hdig _ c h1
  · exact hdig _

theorem dropWhile_isWhitespace_eq_self (l : List Char)
    (hl : ∀ c ∈ l, c.isWhitespace = false) : l.dropWhile Char.isWhitespace = l := by
  cases l with
  | nil => rfl
  | cons c cs =>
    rw [List.dropWhile_cons, hl c (List.mem_cons_self c cs)]
    simp

/-- `str.strip` is the identity on whitespace-free text. -/
theorem pystrip_eq_self (cs : List Char) (h : ∀ c ∈ cs, c.isWhitespace = false) :
    pystrip cs = cs := by
  unfold pystrip
  rw [dropWhile_isWhitespace_eq_self cs h,
    dropWhile_isWhitespace_eq_self cs.reverse (fun c hc => h c (List.mem_reverse.mp hc)),
    List.reverse_reverse]

theorem parseDigitsGo_cons (acc : ℕ) (c : Char) (cs : List Char) :
    parseDigitsGo acc (c :: cs) =
      if c = '_' then
        match cs with
        | [] => none
        | c' :: cs' => if c'.isDigit then parseDigitsGo (10 * acc + (c'.toNat - 48)) cs' else none
      else if c.isDigit then parseDigitsGo (10 * acc + (c.toNat - 48)) cs else none := by
  rw [parseDigitsGo.eq_def]

theorem parseDigitsGo_all_digits :
    ∀ (cs : List Char), (∀ c ∈ cs, c.isDigit = true ∧ c ≠ '_') → ∀ (acc : ℕ),
      parseDigitsGo acc cs = some (cs.foldl (fun a c => 10 * a + (c.toNat - 48)) acc) := by
  intro cs
  induction cs with
  | nil => intro _ acc; rfl
  | cons c cs ih =>
    intro h acc
    obtain ⟨hd, hu⟩ := h c (List.mem_cons_self c cs)
    rw [parseDigitsGo_cons, if_neg hu, if_pos hd,
      ih (fun c' hc' => h c' (List.mem_cons_of_mem _ hc')), List.foldl_cons]

theorem natToDecimal_foldl (n : ℕ) : ∀ acc : ℕ,
    (natToDecimal n).foldl (fun a c => 10 * a + (c.toNat - 48)) acc =
      acc * 10 ^ (natToDecimal n).length + n := by
  induction n using Nat.strong_induction_on with
  | _ n ih =>
    intro acc
    rw [natToDecimal]
    split
    · next h =>
      have hv := (decimal_digit_props n h).2.2.2.2.2.2.2
      simp only [List.foldl_cons, List.foldl_nil, List.length_singleton, pow_one, hv]
      omega
    · next h =>
      rw [List.foldl_append, ih (n / 10) (Nat.div_lt_self (by omega) (by norm_num)) acc]
      have hv := (decimal_digit_props (n % 10) (Nat.mod_lt _ (by norm_num))).2.2.2.2.2.2.2
      simp only [List.foldl_cons, List.foldl_nil, List.length_append, List.length_singleton, hv]
      rw [pow_succ, ← mul_assoc]
      set A := acc * 10 ^ (natToDecimal (n / 10)).length
      omega

theorem parseDigits_natToDecimal (n : ℕ) : parseDigits (natToDecimal n) = some n := by
  have hchars : ∀ c ∈ natToDecimal n, c.isDigit = true ∧ c ≠ '_' := by
    intro c hc
    obtain ⟨d, hd, rfl⟩ := natToDecimal_chars n c hc
    obtain ⟨h1, _, _, _, _, _, h7, _⟩ := decimal_digit_props d hd
    exact ⟨h1, h7⟩
  obtain ⟨c, cs, hcs⟩ : ∃ c cs, natToDecimal n = c :: cs := by
    cases h : natToDecimal n with
    | nil => exact absurd h (natToDecimal_ne_nil n)
    | cons c cs => exact ⟨c, cs, rfl⟩
  have hfold : (c :: cs).foldl (fun a c => 10 * a + (c.toNat - 48)) 0 = n := by
    rw [← hcs, natToDecimal_foldl n 0]
    simp
  rw [hcs, parseDigits, if_pos (hchars c (hcs ▸ List.mem_cons_self c cs)).1,
    parseDigitsGo_all_digits cs (fun c' hc' => hchars c' (hcs ▸ List.mem_cons_of_mem _ hc'))]
  rw [List.foldl_cons] at hfold
  simpa using hfold

theorem pyInt?_intToDecimal (i : ℤ) : pyInt? (intToDecimal i) = some i := by
  rw [intToDecimal]
  split
  · next h =>
    have ht : (((-i).toNat : ℕ) : ℤ) = -i := Int.toNat_of_nonneg (by omega)
    rw [pyInt?]
    rw [if_neg (by decide : ¬ ('-' : Char) = '+'), if_pos rfl, parseDigits_natToDecimal]
    simp [ht]
  · next h =>
    obtain ⟨c, cs, hcs⟩ : ∃ c cs, natToDecimal i.toNat = c :: cs := by
      cases hh : natToDecimal i.toNat with
      | nil => exact absurd hh (natToDecimal_ne_nil _)
      | cons c cs => exact ⟨c, cs, rfl⟩
    obtain ⟨d, hd, hcd⟩ := natToDecimal_chars i.toNat c (hcs ▸ List.mem_cons_self c cs)
    obtain ⟨_, _, h3, h4, _, _, _, _⟩ := decimal_digit_props d hd
    have ht : ((i.toNat : ℕ) : ℤ) = i := Int.toNat_of_nonneg (by omega)
    rw [hcs, pyInt?, if_neg (hcd ▸ h3), if_neg (hcd ▸ h4), ← hcs, parseDigits_natToDecimal]
    simp [ht]

theorem splitFirstColon_append (pre post : List Char) (h : ':' ∉ pre) :
    splitFirstColon (pre ++ ':' :: post) = (pre, post) := by
  induction pre with
  | nil =>
    simp only [List.nil_append]
    rw [splitFirstColon, if_pos rfl]
  | cons c cs ih =>
    have hc : c ≠ ':' := fun hh => h (hh ▸ List.mem_cons_self c cs)
    rw [List.cons_append, splitFirstColon, if_neg hc,
      ih (fun hm => h (List.mem_cons_of_mem c hm))]

theorem splitCommas_cons (c : Char) (cs : List Char) :
    splitCommas (c :: cs) =
      if c = ',' then [] :: splitCommas cs
      else
        match splitCommas cs with
        | [] => [[c]]
        | t :: ts => (c :: t) :: ts := by
  rw [splitCommas.eq_def]

theorem splitCommas_no_comma (cs : List Char) (h : ',' ∉ cs) : splitCommas cs = [cs] := by
  induction cs with
  | nil => rfl
  | cons c cs' ih =>
    have hc : c ≠ ',' := fun hh => h (hh ▸ List.mem_cons_self c cs')
    rw [splitCommas_cons, if_neg hc, ih (fun hm => h (List.mem_cons_of_mem c hm))]

theorem splitCommas_append (t rest : List Char) (h : ',' ∉ t) :
    splitCommas (t ++ ',' :: rest) = t :: splitCommas rest := by
  induction t with
  | nil =>
    simp only [List.nil_append]
    rw [splitCommas_cons, if_pos rfl]
  | cons c t' ih =>
    have hc : c ≠ ',' := fun hh => h (hh ▸ List.mem_cons_self c t')
    rw [List.cons_append, splitCommas_cons, if_neg hc,
      ih (fun hm => h (List.mem_cons_of_mem c hm))]

theorem joinCommas_single (t : List Char) : joinCommas [t] = t := rfl

theorem joinCommas_cons2 (t t2 : List Char) (ts : List (List Char)) :
    joinCommas (t :: t2 :: ts) = t ++ ',' :: joinCommas (t2 :: ts) := rfl

theorem splitCommas_joinCommas :
    ∀ (tokens : List (List Char)), tokens ≠ [] → (∀ t ∈ tokens, ',' ∉ t) →
      splitCommas (joinCommas tokens) = tokens := by
  intro tokens
  induction tokens with
  | nil => exact fun h _ => absurd rfl h
  | cons t ts ih =>
    intro _ h
    cases ts with
    | nil =>
      rw [joinCommas_single]
      exact splitCommas_no_comma t (h t (List.mem_cons_self t []))
    | cons t2 ts' =>
      rw [joinCommas_cons2, splitCommas_append t _ (h t (List.mem_cons_self t (t2 :: ts'))),
        ih (by simp) (fun x hx => h x (List.mem_cons_of_mem t hx))]

theorem mem_joinCommas : ∀ (tokens : List (List Char)) (c : Char), c ∈ joinCommas tokens →
    c = ',' ∨ ∃ t ∈ tokens, c ∈ t := by
  intro tokens
  induction tokens with
  | nil => intro c hc; simp [joinCommas] at hc
  | cons t ts ih =>
    intro c hc
    cases ts with
    | nil =>
      rw [joinCommas_single] at hc
      exact .inr ⟨t, List.mem_cons_self t [], hc⟩
    | cons t2 ts' =>
      rw [joinCommas_cons2] at hc
      rcases List.mem_append.mp hc with h1 | h1
      · exact .inr ⟨t, List.mem_cons_self t (t2 :: ts'), h1⟩
      · rcases List.mem_cons.mp h1 with rfl | h2
        · exact .inl rfl
        · rcases ih c h2 with h3 | ⟨t', ht', hc'⟩
          · exact .inl h3
          · exact .inr ⟨t', List.mem_cons_of_mem t ht', hc'⟩

theorem joinCommas_map_ne_nil (v : ℤ) (vs : List ℤ) :
    joinCommas ((v :: vs).map intToDecimal) ≠ [] := by
  cases vs with
  | nil => simpa [joinCommas_single] using intToDecimal_ne_nil v
  | cons v2 vs' =>
    simp only [List.map_cons, joinCommas_cons2]
    simp [intToDecimal_ne_nil v]

theorem parseValues_map_intToDecimal : ∀ (vs : List ℤ),
    parseValues (vs.map intToDecimal) = .ok vs := by
  intro vs
  induction vs with
  | nil => rfl
  | cons v vs ih =>
    rw [List.map_cons, parseValues_cons,
      pystrip_eq_self _ (fun c hc => (intToDecimal_chars v c hc).1),
      pyInt?_intToDecimal, ih]
    rfl

/-- C9: the share text encode/decode pair round-trips: for every index and
every non-empty value list, `parse_share_from_input` applied to
`format_share_for_display` recovers exactly the inputs. -/
theorem share_text_round_trip (index : ℤ) (values : List ℤ) (hv : values ≠ []) :
    parse_share_from_input (format_share_for_display index values) = .ok (index, values) := by
  obtain ⟨v, vs, rfl⟩ : ∃ v vs, values = v :: vs := by
    cases values with
    | nil => exact absurd rfl hv
    | cons v vs => exact ⟨v, vs, rfl⟩
  have hnc : ':' ∉ intToDecimal index := fun hc => (intToDecimal_chars index ':' hc).2.2 rfl
  have hstrip1 : pystrip (intToDecimal index) = intToDecimal index :=
    pystrip_eq_self _ (fun c hc => (intToDecimal_chars index c hc).1)
  have hws : ∀ c ∈ joinCommas ((v :: vs).map intToDecimal), c.isWhitespace = false := by
    intro c hc
    rcases mem_joinCommas _ c hc with rfl | ⟨t, ht, hct⟩
    · decide
    · obtain ⟨w, _, rfl⟩ := List.mem_map.mp ht
      exact (intToDecimal_chars w c hct).1
  have hstrip2 := pystrip_eq_self _ hws
  have hne2 : joinCommas ((v :: vs).map intToDecimal) ≠ [] := joinCommas_map_ne_nil v vs
  have hnocomma : ∀ t ∈ (v :: vs).map intToDecimal, ',' ∉ t := by
    intro t ht hc
    obtain ⟨w, _, rfl⟩ := List.mem_map.mp ht
    exact (intToDecimal_chars w ',' hc).2.1 rfl
  have hcolon : (':' : Char) ∈
      intToDecimal index ++ ':' :: joinCommas ((v :: vs).map intToDecimal) := by simp
  show parse_share_from_input
    (String.mk (intToDecimal index ++ ':' :: joinCommas ((v :: vs).map intToDecimal))) = _
  rw [parse_share_from_input]
  simp only [if_pos hcolon, splitFirstColon_append _ _ hnc, hstrip1, pyInt?_intToDecimal,
    hstrip2, if_neg hne2, splitCommas_joinCommas _ (by simp) hnocomma,
    parseValues_map_intToDecimal]

/-- Evaluation of `share_text_round_trip` at a negative index and mixed-sign
values. -/
theorem share_text_round_trip_witness :
    parse_share_from_input (format_share_for_display (-2) [10, -3]) = .ok (-2, [10, -3]) :=
  share_text_round_trip (-2) [10, -3] (by decide)

/-! ### The field `ZMod 257` and the arithmetic bridge -/

instance fact_prime_257 : Fact (Nat.Prime 257) := ⟨by norm_num⟩

theorem intCast257_emod (a : ℤ) : ((a % 257 : ℤ) : ZMod 257) = (a : ZMod 257) := by
  exact_mod_cast ZMod.intCast_mod a 257

theorem natCast257_mod (a : ℕ) : ((a % 257 : ℕ) : ZMod 257) = (a : ZMod 257) := by
  exact_mod_cast ZMod.natCast_mod a 257

/-- Fermat inversion: in `ZMod 257`, `a ^ 255 = a⁻¹` (also at `0`). -/
theorem pow255_eq_inv (a : ZMod 257) : a ^ 255 = a⁻¹ := by
  by_cases ha : a = 0
  · subst ha
    simp [zero_pow]
  · have h : a ^ 256 = 1 := by
      have h1 := ZMod.pow_card_sub_one_eq_one (p := 257) ha
      norm_num at h1
      exact h1
    refine (inv_eq_of_mul_eq_one_right ?_).symm
    calc a * a ^ 255 = a ^ 256 := by ring
    _ = 1 := h

/-- `_mod_inverse(a, 257)` is field inversion in `ZMod 257`. -/
theorem mod_inverse_cast (a : ℤ) : ((mod_inverse a 257 : ℤ) : ZMod 257) = (a : ZMod 257)⁻¹ := by
  rw [mod_inverse, (by decide : ((257:ℤ) - 2).toNat = 255)]
  calc (((a % 257) ^ 255 % 257 : ℤ) : ZMod 257)
      = (((a % 257 : ℤ) : ZMod 257)) ^ 255 := by rw [intCast257_emod]; push_cast; ring
    _ = ((a : ZMod 257)) ^ 255 := by rw [intCast257_emod]
    _ = (a : ZMod 257)⁻¹ := pow255_eq_inv _

/-- Integers in `[0, 257)` are distinguished by their images in `ZMod 257`. -/
theorem int_cast257_inj (a b : ℤ) (ha0 : 0 ≤ a) (ha : a < 257) (hb0 : 0 ≤ b) (hb : b < 257)
    (h : (a : ZMod 257) = (b : ZMod 257)) : a = b := by
  have h2 := (ZMod.intCast_eq_intCast_iff' a b 257).mp h
  rwa [(by norm_num : (((257:ℕ)):ℤ) = 257), Int.emod_eq_of_lt ha0 ha,
    Int.emod_eq_of_lt hb0 hb] at h2

/-- C8: for every `a` in `[1, 256]`, `a * _mod_inverse(a, 257) ≡ 1 mod 257`. -/
theorem inverse_identity (a : ℕ) (h1 : 1 ≤ a) (h2 : a ≤ 256) :
    ((a : ℤ) * mod_inverse (a : ℤ) 257) % 257 = 1 := by
  have hne : ((a : ℕ) : ZMod 257) ≠ 0 := by
    intro h0
    have hv := ZMod.val_cast_of_lt (show a < 257 by omega)
    rw [h0, ZMod.val_zero] at hv
    omega
  apply int_cast257_inj _ _ (Int.emod_nonneg _ (by norm_num))
    (Int.emod_lt_of_pos _ (by norm_num)) (by norm_num) (by norm_num)
  rw [intCast257_emod]
  push_cast
  rw [mod_inverse_cast]
  push_cast
  exact mul_inv_cancel₀ hne

/-- Evaluation of `inverse_identity` at `a = 2`. -/
theorem inverse_identity_witness :
    (((2:ℕ) : ℤ) * mod_inverse ((2:ℕ) : ℤ) 257) % 257 = 1 :=
  inverse_identity 2 (by norm_num) (by norm_num)

/-! ### C1: the modular folds of the source, read in `ZMod 257` -/

theorem eval_foldl_enumFrom (x : ℕ) :
    ∀ (cs : List ℕ) (s acc : ℕ),
      (((List.enumFrom s cs).foldl
          (fun result pc => (result + pc.2 * (x ^ pc.1 % 257)) % 257) acc : ℕ) : ZMod 257)
      = (acc : ZMod 257) +
          ∑ i in Finset.range cs.length, (cs.getD i 0 : ZMod 257) * (x : ZMod 257) ^ (s + i) := by
  intro cs
  induction cs with
  | nil => intro s acc; simp
  | cons c cs ih =>
    intro s acc
    rw [List.enumFrom_cons, List.foldl_cons, ih (s + 1)]
    rw [natCast257_mod]
    push_cast [natCast257_mod]
    rw [List.length_cons, Finset.sum_range_succ']
    simp only [List.getD_cons_succ, List.getD_cons_zero]
    rw [Finset.sum_congr rfl (fun i _ => by
      rw [show s + 1 + i = s + (i + 1) from by omega])]
    ring

/-- `_evaluate_polynomial(coeffs, x)` is the field value `Σ coeffs[i]·x^i`. -/
theorem evaluate_polynomial_cast (coeffs : List ℕ) (x : ℕ) :
    ((evaluate_polynomial 257 coeffs x : ℕ) : ZMod 257)
      = ∑ i in Finset.range coeffs.length,
          (coeffs.getD i 0 : ZMod 257) * (x : ZMod 257) ^ i := by
  have h := eval_foldl_enumFrom x coeffs 0 0
  simpa [evaluate_polynomial, List.enum] using h

theorem inner_foldl_cast (i : ℕ) (g : ℕ → ℤ) :
    ∀ (m : ℕ) (a : ℤ),
      (((List.range m).foldl
          (fun prod j => if i ≠ j then prod * g j % 257 else prod) a : ℤ) : ZMod 257)
      = (a : ZMod 257) *
          ∏ j in Finset.range m, (if i = j then 1 else ((g j : ℤ) : ZMod 257)) := by
  intro m
  induction m with
  | zero => intro a; simp
  | succ m ih =>
    intro a
    rw [List.range_succ, List.foldl_append, List.foldl_cons, List.foldl_nil,
      Finset.prod_range_succ]
    by_cases him : i = m
    · rw [if_neg (fun hne => hne him), ih a, if_pos him, mul_one]
    · rw [if_pos him, intCast257_emod]
      push_cast
      rw [ih a, if_neg him]
      ring

theorem outer_foldl_cast (g : ℕ → ℤ) :
    ∀ (m : ℕ) (a : ℤ),
      (((List.range m).foldl (fun total i => (total + g i) % 257) a : ℤ) : ZMod 257)
      = (a : ZMod 257) + ∑ i in Finset.range m, ((g i : ℤ) : ZMod 257) := by
  intro m
  induction m with
  | zero => intro a; simp
  | succ m ih =>
    intro a
    rw [List.range_succ, List.foldl_append, List.foldl_cons, List.foldl_nil,
      Finset.sum_range_succ, intCast257_emod]
    push_cast
    rw [ih a]
    ring

theorem prod_ite_eq_prod_erase (k i : ℕ) (hi : i < k) (g : ℕ → ZMod 257) :
    ∏ j in Finset.range k, (if i = j then 1 else g j) = ∏ j in (Finset.range k).erase i, g j := by
  rw [← Finset.mul_prod_erase _ _ (Finset.mem_range.mpr hi), if_pos rfl, one_mul]
  apply Finset.prod_congr rfl
  intro j hj
  rw [if_neg (fun he => (Finset.mem_erase.mp hj).1 he.symm)]

/-- `_lagrange_interpolate(x, xv, yv)` mod 257, read in the field: the
classical Lagrange sum `Σᵢ yᵢ · Πⱼ≠ᵢ (x - xⱼ)·(xᵢ - xⱼ)⁻¹`. -/
theorem lagrange_interpolate_cast (x : ℤ) (xv yv : List ℤ) :
    ((lagrange_interpolate 257 x xv yv : ℤ) : ZMod 257)
      = ∑ i in Finset.range xv.length,
          ((yv.getD i 0 : ℤ) : ZMod 257) *
            ∏ j in (Finset.range xv.length).erase i,
              (((x : ZMod 257) - ((xv.getD j 0 : ℤ) : ZMod 257)) *
                (((xv.getD i 0 : ℤ) : ZMod 257) - ((xv.getD j 0 : ℤ) : ZMod 257))⁻¹) := by
  simp only [lagrange_interpolate]
  rw [outer_foldl_cast (fun i => (List.range xv.length).foldl
    (fun prod j => if i ≠ j then
        prod * ((x - xv.getD j 0) * mod_inverse (xv.getD i 0 - xv.getD j 0) 257) % 257
      else prod) (yv.getD i 0)) xv.length 0]
  rw [Int.cast_zero, zero_add]
  apply Finset.sum_congr rfl
  intro i hi
  rw [inner_foldl_cast i (fun j => (x - xv.getD j 0) * mod_inverse (xv.getD i 0 - xv.getD j 0) 257)
    xv.length (yv.getD i 0)]
  congr 1
  rw [← prod_ite_eq_prod_erase xv.length i (Finset.mem_range.mp hi)]
  apply Finset.prod_congr rfl
  intro j _
  by_cases hij : i = j
  · rw [if_pos hij, if_pos hij]
  · rw [if_neg hij, if_neg hij]
    push_cast
    rw [mod_inverse_cast]
    push_cast
    ring

/-- A polynomial written as `Σ_{j<m} C (c j) * X^j` has degree below `m`. -/
theorem degree_rangeSum_lt (m : ℕ) (c : ℕ → ZMod 257) :
    (∑ j in Finset.range m, Polynomial.C (c j) * Polynomial.X ^ j).degree
      < (m : WithBot ℕ) := by
  apply lt_of_le_of_lt (Polynomial.degree_sum_le _ _)
  refine (Finset.sup_lt_iff (WithBot.bot_lt_coe m)).mpr ?_
  intro j hj
  exact lt_of_le_of_lt (Polynomial.degree_C_mul_X_pow_le j (c j))
    (WithBot.coe_lt_coe.mpr (Finset.mem_range.mp hj))

theorem eval_rangeSum (m : ℕ) (c : ℕ → ZMod 257) (z : ZMod 257) :
    (∑ j in Finset.range m, Polynomial.C (c j) * Polynomial.X ^ j).eval z
      = ∑ j in Finset.range m, c j * z ^ j := by
  rw [Polynomial.eval_finset_sum]
  simp

theorem eval_rangeSum_zero (m : ℕ) (hm : 1 ≤ m) (c : ℕ → ZMod 257) :
    (∑ j in Finset.range m, Polynomial.C (c j) * Polynomial.X ^ j).eval 0 = c 0 := by
  rw [eval_rangeSum, Finset.sum_eq_single 0]
  · simp
  · intro j _ hne
    simp [zero_pow hne]
  · intro h
    exact absurd (Finset.mem_range.mpr hm) h

/-- Evaluating Mathlib's interpolating polynomial at `0` gives the classical
Lagrange sum at `0`. -/
theorem interpolate_eval_zero (k : ℕ) (v r : ℕ → ZMod 257) :
    (Lagrange.interpolate (Finset.range k) v r).eval 0
      = ∑ i in Finset.range k,
          r i * ∏ j in (Finset.range k).erase i, ((0 : ZMod 257) - v j) * (v i - v j)⁻¹ := by
  rw [Lagrange.interpolate_apply, Polynomial.eval_finset_sum]
  apply Finset.sum_congr rfl
  intro i _
  rw [Polynomial.eval_mul, Polynomial.eval_C, Lagrange.basis, Polynomial.eval_prod]
  congr 1
  apply Finset.prod_congr rfl
  intro j _
  rw [Lagrange.basisDivisor, Polynomial.eval_mul, Polynomial.eval_C, Polynomial.eval_sub,
    Polynomial.eval_X, Polynomial.eval_C]
  ring

/-- The source's interpolation at `0`, on values of a polynomial of degree
`< k` at `k` distinct nodes, recovers the polynomial's value at `0`. -/
theorem lagrange_recovers (k : ℕ) (xv yv : List ℤ) (hx : xv.length = k)
    (f : Polynomial (ZMod 257)) (hdeg : f.degree < (k : WithBot ℕ))
    (hinj : Set.InjOn (fun i : ℕ => ((xv.getD i 0 : ℤ) : ZMod 257)) (Finset.range k : Set ℕ))
    (hval : ∀ i < k, ((yv.getD i 0 : ℤ) : ZMod 257) = f.eval ((xv.getD i 0 : ℤ) : ZMod 257)) :
    ((lagrange_interpolate 257 0 xv yv : ℤ) : ZMod 257) = f.eval 0 := by
  rw [lagrange_interpolate_cast, hx]
  have heq : f = Lagrange.interpolate (Finset.range k)
      (fun i : ℕ => ((xv.getD i 0 : ℤ) : ZMod 257))
      (fun i => f.eval ((xv.getD i 0 : ℤ) : ZMod 257)) :=
    Lagrange.eq_interpolate hinj (by simpa using hdeg)
  conv_rhs => rw [heq]
  rw [interpolate_eval_zero]
  apply Finset.sum_congr rfl
  intro i hi
  rw [← hval i (Finset.mem_range.mp hi)]
  congr 1

/-- With at least one share, the source's interpolation result is already
reduced into `[0, 257)`. -/
theorem lagrange_interpolate_bounds (x : ℤ) (xv yv : List ℤ) (hne : xv ≠ []) :
    0 ≤ lagrange_interpolate 257 x xv yv ∧ lagrange_interpolate 257 x xv yv < 257 := by
  obtain ⟨m, hm⟩ : ∃ m, xv.length = m + 1 := by
    cases xv with
    | nil => exact absurd rfl hne
    | cons a l => exact ⟨l.length, rfl⟩
  simp only [lagrange_interpolate, hm]
  rw [List.range_succ, List.foldl_append, List.foldl_cons, List.foldl_nil]
  exact ⟨Int.emod_nonneg _ (by norm_num), Int.emod_lt_of_pos _ (by norm_num)⟩

/-! ### C1: assembling the round trip -/

theorem shareValues_getD (p : ℕ) (secret : List ℕ) (rands : List (List ℕ)) (x idx : ℕ)
    (hidx : idx < secret.length) (hr : rands.length = secret.length) :
    (shareValues p secret rands x).getD idx 0
      = evaluate_polynomial p (secret.getD idx 0 :: rands.getD idx []) x := by
  have hzlen : idx < (secret.zip rands).length := by
    rw [List.length_zip, hr, Nat.min_self]
    exact hidx
  rw [shareValues, List.getD_eq_getElem _ _ (by simpa using hzlen), List.getElem_map,
    List.getElem_zip, ← List.getD_eq_getElem secret 0 hidx,
    ← List.getD_eq_getElem rands [] (by rw [hr]; exact hidx)]

theorem natCast257_inj_small (a b : ℕ) (ha : a < 257) (hb : b < 257)
    (h : (a : ZMod 257) = (b : ZMod 257)) : a = b := by
  have hva := ZMod.val_cast_of_lt ha
  have hvb := ZMod.val_cast_of_lt hb
  rw [← hva, ← hvb, h]

theorem nodup_getD_inj (l : List ℕ) (hnd : l.Nodup) (i j : ℕ) (hi : i < l.length)
    (hj : j < l.length) (h : l.getD i 0 = l.getD j 0) : i = j := by
  rw [List.getD_eq_getElem _ _ hi, List.getD_eq_getElem _ _ hj] at h
  have hg : l.get ⟨i, hi⟩ = l.get ⟨j, hj⟩ := by simpa using h
  have := List.nodup_iff_injective_get.mp hnd hg
  simpa using congrArg Fin.val this

/-- C1: round trip.  For every non-empty byte-level secret that is a
string's UTF-8 encoding (`hvalid`: a byte sequence arises from
`_string_to_bytes` exactly when it is valid UTF-8), thresholds
`2 ≤ k ≤ n ≤ 20`, any tail-coefficient choice of the right shape, and ANY
`k`-element subset of the returned shares taken in any order (`sel` lists
distinct share positions), `reconstruct_secret` returns exactly the
original secret — the reconstructed bytes are the secret's bytes, so the
final UTF-8 decode succeeds and yields the original string. -/
theorem round_trip (secret : List ℕ) (n k : ℕ) (rands : List (List ℕ))
    (shares : List (ℕ × List ℕ)) (sel : List ℕ)
    (hbytes : ∀ b ∈ secret, b < 256)
    (hvalid : validUTF8 (secret.map fun b : ℕ => (b : ℤ)) = true)
    (hsec : secret ≠ []) (hk : 2 ≤ k) (hkn : k ≤ n) (hn20 : n ≤ 20)
    (hr : rands.length = secret.length)
    (hrk : ∀ r ∈ rands, r.length = k - 1)
    (hout : create_shares 257 secret n k rands = .ok shares)
    (hselk : sel.length = k) (hseln : ∀ s ∈ sel, s < n) (hnd : sel.Nodup) :
    reconstruct_secret 257
        (sel.map fun s => (((shares.getD s (0, [])).1 : ℤ),
          (shares.getD s (0, [])).2.map fun v : ℕ => (v : ℤ)))
      = .ok (secret.map fun b : ℕ => (b : ℤ)) := by
  rw [create_shares_eq 257 secret n k rands hsec hk hkn] at hout
  obtain rfl : buildShares 257 n secret rands = shares := by injection hout
  have hbuildlen : (buildShares 257 n secret rands).length = n := by simp [buildShares]
  have hshare : ∀ s ∈ sel, (buildShares 257 n secret rands).getD s (0, [])
      = (s + 1, shareValues 257 secret rands (s + 1)) := by
    intro s hs
    rw [List.getD_eq_getElem _ _ (by rw [hbuildlen]; exact hseln s hs)]
    simp [buildShares]
  have hmap : sel.map (fun s => ((((buildShares 257 n secret rands).getD s (0, [])).1 : ℤ),
        ((buildShares 257 n secret rands).getD s (0, [])).2.map fun v : ℕ => (v : ℤ)))
      = sel.map (fun s => (((s + 1 : ℕ) : ℤ),
          (shareValues 257 secret rands (s + 1)).map fun v : ℕ => (v : ℤ))) :=
    List.map_congr_left (fun s hs => by rw [hshare s hs])
  rw [hmap]
  have hsvlen : ∀ x, (shareValues 257 secret rands x).length = secret.length := by
    intro x
    rw [shareValues, List.length_map, List.length_zip, hr, Nat.min_self]
  obtain ⟨s0, sel', rfl⟩ : ∃ s0 sel', sel = s0 :: sel' := by
    cases sel with
    | nil => simp at hselk; omega
    | cons a l => exact ⟨a, l, rfl⟩
  have hB : ((List.range ((((s0 + 1 : ℕ) : ℤ),
        (shareValues 257 secret rands (s0 + 1)).map fun v : ℕ => (v : ℤ)) :
          ℤ × List ℤ).2.length).map fun idx =>
        lagrange_interpolate 257 0
          ((((s0 :: sel').map fun s => (((s + 1 : ℕ) : ℤ),
            (shareValues 257 secret rands (s + 1)).map fun v : ℕ => (v : ℤ))).map fun x => x.1))
          (((s0 :: sel').map fun s => (((s + 1 : ℕ) : ℤ),
            (shareValues 257 secret rands (s + 1)).map fun v : ℕ => (v : ℤ))).map
              fun share => share.2.getD idx 0) % 256)
      = secret.map fun b : ℕ => (b : ℤ) := by
    apply List.ext_getElem
    · simp [hsvlen]
    intro idx h1 h2
    have hidx : idx < secret.length := by simpa [hsvlen] using h1
    have hidxr : idx < rands.length := by rw [hr]; exact hidx
    simp only [List.getElem_map, List.getElem_range]
    have hxv : (((s0 :: sel').map (fun s => (((s + 1 : ℕ) : ℤ),
          (shareValues 257 secret rands (s + 1)).map fun v : ℕ => (v : ℤ)))).map fun x => x.1)
        = (s0 :: sel').map (fun s => ((s + 1 : ℕ) : ℤ)) := by
      rw [List.map_map]
      exact List.map_congr_left (fun s _ => rfl)
    have hyv : (((s0 :: sel').map (fun s => (((s + 1 : ℕ) : ℤ),
          (shareValues 257 secret rands (s + 1)).map fun v : ℕ => (v : ℤ)))).map
            fun share => share.2.getD idx 0)
        = (s0 :: sel').map (fun s =>
            ((evaluate_polynomial 257 (secret.getD idx 0 :: rands.getD idx []) (s + 1) : ℕ) : ℤ)) := by
      rw [List.map_map]
      apply List.map_congr_left
      intro s _
      show ((shareValues 257 secret rands (s + 1)).map fun v : ℕ => (v : ℤ)).getD idx 0 = _
      rw [List.getD_eq_getElem _ _ (by simp only [List.length_map, hsvlen]; exact hidx), List.getElem_map,
        ← List.getD_eq_getElem _ 0 (by simp only [List.length_map, hsvlen]; exact hidx),
        shareValues_getD 257 secret rands (s + 1) idx hidx hr]
    rw [hxv, hyv]
    have hSlen : (s0 :: sel').length = k := hselk
    have hk1 : 1 ≤ k := by omega
    have hrcmem : rands.getD idx [] ∈ rands := by
      rw [List.getD_eq_getElem _ _ hidxr]
      exact List.getElem_mem _
    have hrclen : (rands.getD idx []).length = k - 1 := hrk _ hrcmem
    have hclen : (secret.getD idx 0 :: rands.getD idx []).length = k := by
      simp only [List.length_cons, hrclen]
      omega
    have hbmem : secret.getD idx 0 ∈ secret := by
      rw [List.getD_eq_getElem _ _ hidx]
      exact List.getElem_mem _
    have hblt : secret.getD idx 0 < 256 := hbytes _ hbmem
    have hxgetD : ∀ i < k, ((s0 :: sel').map (fun s => ((s + 1 : ℕ) : ℤ))).getD i 0
        = (((s0 :: sel').getD i 0 + 1 : ℕ) : ℤ) := by
      intro i hik
      rw [List.getD_eq_getElem _ _ (by simp only [List.length_map, hSlen]; exact hik), List.getElem_map,
        ← List.getD_eq_getElem _ 0 (by simp only [List.length_map, hSlen]; exact hik)]
    have hygetD : ∀ i < k, ((s0 :: sel').map (fun s =>
          ((evaluate_polynomial 257 (secret.getD idx 0 :: rands.getD idx [])
            (s + 1) : ℕ) : ℤ))).getD i 0
        = ((evaluate_polynomial 257 (secret.getD idx 0 :: rands.getD idx [])
            ((s0 :: sel').getD i 0 + 1) : ℕ) : ℤ) := by
      intro i hik
      rw [List.getD_eq_getElem _ _ (by simp only [List.length_map, hSlen]; exact hik), List.getElem_map,
        ← List.getD_eq_getElem _ 0 (by simp only [List.length_map, hSlen]; exact hik)]
    have hsellt : ∀ i < k, (s0 :: sel').getD i 0 + 1 < 257 := by
      intro i hik
      have hmem : (s0 :: sel').getD i 0 ∈ s0 :: sel' := by
        rw [List.getD_eq_getElem _ _ (by simp only [List.length_map, hSlen]; exact hik)]
        exact List.getElem_mem _
      have := hseln _ hmem
      omega
    have hinj : Set.InjOn (fun i : ℕ =>
        ((((s0 :: sel').map (fun s => ((s + 1 : ℕ) : ℤ))).getD i 0 : ℤ) : ZMod 257))
        (Finset.range k : Set ℕ) := by
      intro i hi j hj hij
      have hik : i < k := by simpa using hi
      have hjk : j < k := by simpa using hj
      simp only [hxgetD i hik, hxgetD j hjk] at hij
      have hij2 : ((((s0 :: sel').getD i 0 + 1 : ℕ)) : ZMod 257)
          = (((s0 :: sel').getD j 0 + 1 : ℕ) : ZMod 257) := by
        exact_mod_cast hij
      have hij3 := natCast257_inj_small _ _ (hsellt i hik) (hsellt j hjk) hij2
      exact nodup_getD_inj _ hnd i j (by simp only [List.length_map, hSlen]; exact hik) (by simp only [List.length_map, hSlen]; exact hjk)
        (by omega)
    have hval : ∀ i < k, ((((s0 :: sel').map (fun s =>
          ((evaluate_polynomial 257 (secret.getD idx 0 :: rands.getD idx [])
            (s + 1) : ℕ) : ℤ))).getD i 0 : ℤ) : ZMod 257)
        = (∑ j in Finset.range k, Polynomial.C
              (((secret.getD idx 0 :: rands.getD idx []).getD j 0 : ℕ) : ZMod 257)
                * Polynomial.X ^ j).eval
            ((((s0 :: sel').map (fun s => ((s + 1 : ℕ) : ℤ))).getD i 0 : ℤ) : ZMod 257) := by
      intro i hik
      rw [hxgetD i hik, hygetD i hik, eval_rangeSum]
      push_cast
      rw [evaluate_polynomial_cast, hclen]
      push_cast
      rfl
    have hrec := lagrange_recovers k
      ((s0 :: sel').map (fun s => ((s + 1 : ℕ) : ℤ)))
      ((s0 :: sel').map (fun s =>
        ((evaluate_polynomial 257 (secret.getD idx 0 :: rands.getD idx []) (s + 1) : ℕ) : ℤ)))
      (by simp only [List.length_map]; exact hSlen)
      (∑ j in Finset.range k, Polynomial.C
          (((secret.getD idx 0 :: rands.getD idx []).getD j 0 : ℕ) : ZMod 257) * Polynomial.X ^ j)
      (degree_rangeSum_lt k _)
      hinj hval
    rw [eval_rangeSum_zero k hk1] at hrec
    have hlag : lagrange_interpolate 257 0
        ((s0 :: sel').map (fun s => ((s + 1 : ℕ) : ℤ)))
        ((s0 :: sel').map (fun s =>
          ((evaluate_polynomial 257 (secret.getD idx 0 :: rands.getD idx []) (s + 1) : ℕ) : ℤ)))
        = ((secret.getD idx 0 : ℕ) : ℤ) := by
      have hb := lagrange_interpolate_bounds 0
        ((s0 :: sel').map (fun s => ((s + 1 : ℕ) : ℤ)))
        ((s0 :: sel').map (fun s =>
          ((evaluate_polynomial 257 (secret.getD idx 0 :: rands.getD idx []) (s + 1) : ℕ) : ℤ)))
        (by simp)
      apply int_cast257_inj _ _ hb.1 hb.2 (by positivity)
        (by exact_mod_cast (by omega : secret.getD idx 0 < 257))
      rw [hrec]
      push_cast
      simp
    rw [hlag, Int.emod_eq_of_lt (by positivity) (by exact_mod_cast hblt),
      List.getD_eq_getElem _ _ hidx]
  rw [reconstruct_secret_ok ((s0 :: sel').map fun s => (((s + 1 : ℕ) : ℤ),
      (shareValues 257 secret rands (s + 1)).map fun v : ℕ => (v : ℤ)))
      (((s0 + 1 : ℕ) : ℤ), (shareValues 257 secret rands (s0 + 1)).map fun v : ℕ => (v : ℤ))
      (by simp) (by simp) ?hlen (by rw [hB]; exact hvalid), hB]
  case hlen =>
    intro sh hsh
    obtain ⟨s, hs, rfl⟩ := List.mem_map.mp hsh
    simp [hsvlen]

/-- Evaluation of `round_trip`: secret `"A"` (`[65]`), `n = k = 2`, tail
coefficient `3`, and the two shares supplied in reversed order. -/
theorem round_trip_witness :
    reconstruct_secret 257
        ([1, 0].map fun s => (((([(1, [68]), (2, [71])] : List (ℕ × List ℕ)).getD s (0, [])).1 : ℤ),
          (([(1, [68]), (2, [71])] : List (ℕ × List ℕ)).getD s (0, [])).2.map fun v : ℕ => (v : ℤ)))
      = .ok ([65].map fun b : ℕ => (b : ℤ)) :=
  round_trip [65] 2 2 [[3]] [(1, [68]), (2, [71])] [1, 0] (by decide) (by decide) (by decide)
    (by decide) (by decide) (by decide) (by decide) (by decide) rfl (by decide) (by decide)
    (by decide)

end ShamirCore
